import Mathlib

/-!
# Verification of the crosstalk-mediated-by-DD experiment pipeline

A shallow embedding of `src/src/ExperimentClass.py` (class `Experiment`).
Pure circuit-construction logic, the attack-sweep `slots` schedule, the
duration-rounding pass, the raw-result reduction and the Hellinger fidelity
score are translated directly from the source.  Backend-provided capabilities
(transpilation, ALAP scheduling plus dynamical-decoupling padding, basis
translation, sampling) are external collaborators and are modelled as opaque
function fields of a `Backend` record, exactly as the spec treats them.
-/

namespace CrosstalkDD

/-- The unit string passed to `qc.delay(slots, unit="us", qarg=q[k])`. -/
def usUnit : String := "us"

/-- One logical (pre-transpilation) circuit instruction, as produced by the
builder methods of `Experiment`.  `sub` is an appended sub-instruction
(`qc.append(self.groverOperator, [...])`). -/
inductive Instr where
  | x (q : Nat)
  | h (q : Nat)
  | ccz (qs : List Nat)
  | sub (ops : List Instr) (qs : List Nat)
  | cx (ctrl tgt : Nat)
  | delay (dur : ℚ) (unit : String) (q : Nat)
  | measure (qs : List Nat)

/-- Python `range(start, stop, step)` for a positive step. -/
def pyRange (start stop step : Nat) : List Nat :=
  (List.range ((stop - start + step - 1) / step)).map (fun m => start + step * m)

/-- `createGroverOperator` (lines 53-83): the 3-qubit Grover diffusion
operator, as the list of operations of the 3-qubit circuit it converts to an
instruction. -/
def createGroverOperator : List Instr :=
  [Instr.ccz [0, 1, 2],
   Instr.h 0, Instr.h 1, Instr.h 2,
   Instr.x 0, Instr.x 1, Instr.x 2,
   Instr.ccz [0, 1, 2],
   Instr.x 0, Instr.x 1, Instr.x 2,
   Instr.h 0, Instr.h 1, Instr.h 2]

/-- The initial-state preparation common to every builder method:
`initialState == 1` flips qubits `3, 5, ...` below `numQubits`;
`initialState == 2` puts them in superposition; otherwise nothing. -/
def prepOps (numQubits initialState : Nat) : List Instr :=
  if initialState = 1 then (pyRange 3 numQubits 2).map Instr.x
  else if initialState = 2 then (pyRange 3 numQubits 2).map Instr.h
  else []

/-- The base circuit shape shared by every builder: state preparation,
Hadamards on the three core qubits, two appended Grover operators. -/
def baseOps (numQubits initialState : Nat) (grover : List Instr) : List Instr :=
  prepOps numQubits initialState ++
    [Instr.h 0, Instr.h 1, Instr.h 2,
     Instr.sub grover [0, 1, 2], Instr.sub grover [0, 1, 2]]

/-- One update step of the `slots` variable (lines 207-216 and the identical
blocks at 252-261, 316-325, 361-370): the `if/elif` chain run at the top of
sweep iteration `i`. -/
def slotsStep (i : Nat) (s : ℚ) : ℚ :=
  if i < 20 ∧ i % 5 = 0 then s / 2
  else if 20 ≤ i ∧ i < 25 then 3 / 4
  else if 25 ≤ i ∧ i < 30 then 1 / 2
  else if 30 ≤ i ∧ i < 35 then 1 / 20
  else if 35 ≤ i ∧ i < 40 then 1 / 40
  else s

/-- The value of `slots` used in the attack loop of sweep iteration `i`:
`slots` starts at `8` before the loop and is updated by `slotsStep i` at the
top of iteration `i`, before the attack gates are emitted.  All four
attack-building methods compute `slots` by this same code. -/
def slotsAt : Nat → ℚ
  | 0 => slotsStep 0 8
  | i + 1 => slotsStep (i + 1) (slotsAt i)

/-- The attack overlay of sweep iteration `i` (lines 218-221, 263-266,
327-330, 372-375): `i` rounds, each round iterating over the redundancy-qubit
pairs — stride 2 from qubit 3 in normal mode (`cx(q[k], q[k+1])` then a delay
on `q[k]`), stride 3 from qubit 3 in spacing mode (`cx(q[k+1], q[k+2])` then
a delay on `q[k+1]`). -/
def attackOps (numQubits i : Nat) (slots : ℚ) (spacing : Bool) : List Instr :=
  (List.range i).flatMap (fun _ =>
    if spacing then
      (pyRange 3 numQubits 3).flatMap
        (fun k => [Instr.cx (k + 1) (k + 2), Instr.delay slots usUnit (k + 1)])
    else
      (pyRange 3 numQubits 2).flatMap
        (fun k => [Instr.cx k (k + 1), Instr.delay slots usUnit k]))

/-- Register size of the spacing variants: `numQubits + (numQubits - 3)//2`
(lines 298-299). -/
def spacingRegisterSize (numQubits : Nat) : Nat :=
  numQubits + (numQubits - 3) / 2

/-- The full logical circuit built by `addNoAttackCircuit` (and the DD
variant) before transpilation: base shape plus a full-register measurement. -/
def noAttackBody (numQubits initialState : Nat) (grover : List Instr) : List Instr :=
  baseOps numQubits initialState grover ++ [Instr.measure (List.range numQubits)]

/-- The full logical circuit of sweep iteration `i` of the four attack
builders, before transpilation. -/
def attackBody (numQubits initialState : Nat) (grover : List Instr) (i : Nat)
    (spacing : Bool) : List Instr :=
  baseOps numQubits initialState grover ++ attackOps numQubits i (slotsAt i) spacing ++
    [Instr.measure (List.range (if spacing then spacingRegisterSize numQubits else numQubits))]

/-- A scheduled (post-transpilation) instruction: only its name and its
duration (in device `dt` units) matter to the embedded rounding pass. -/
structure SchedInstr where
  name : String
  duration : Nat
deriving DecidableEq, Repr

/-- A transpiled circuit, as stored in `self.circuits`. -/
def Circuit : Type := List SchedInstr

/-- A raw result: the insertion-ordered `dict` of bitstring → count returned
by `get_counts()`. -/
def RawResult : Type := List (String × Nat)

/-- The duration-rounding pass run after dynamical-decoupling padding
(lines 175-177, 284-286, 393-395): `if d % 8: d = (d // 8 + 1) * 8`. -/
def roundDuration (d : Nat) : Nat :=
  if d % 8 ≠ 0 then (d / 8 + 1) * 8 else d

/-- The rounding pass applied to every instruction of the padded circuit. -/
def roundPass (c : Circuit) : Circuit :=
  c.map (fun it => { it with duration := roundDuration it.duration })

/-- The schedule claimed by the spec for the value of `slots` used at sweep
index `i`: written from the claim's words, to be compared with `slotsAt`. -/
def slotsSpec (i : Nat) : ℚ :=
  if i < 5 then 4
  else if i < 10 then 2
  else if i < 15 then 1
  else if i < 20 then 1 / 2
  else if i < 25 then 3 / 4
  else if i < 30 then 1 / 2
  else if i < 35 then 1 / 20
  else 1 / 40

/-! ## The fidelity evaluator (lines 430-455) -/

/-- Accumulate `v` onto key `k` of an insertion-ordered dict, Python style:
`if k not in d: d[k] = 0`, then `d[k] += v`. -/
def addToDist : List (String × Nat) → String → Nat → List (String × Nat)
  | [], k, v => [(k, v)]
  | (k0, v0) :: rest, k, v =>
    if k0 = k then (k0, v0 + v) :: rest else (k0, v0) :: addToDist rest k v

/-- Lines 441-446 of `find_fidelity`: reduce a raw counts dict to the
distribution over the last-3-character suffixes (`key[-3:]`), summing the
counts of colliding keys, in dict iteration order. -/
def reduceToDataQubits (counts : List (String × Nat)) : List (String × Nat) :=
  counts.foldl (fun acc kv => addToDist acc (kv.1.takeRight 3) kv.2) []

/-- Total of the values of a counts dict. -/
def sumVals (d : List (String × Nat)) : Nat := (d.map Prod.snd).sum

/-- The key set of a counts dict. -/
def keysOf (d : List (String × Nat)) : Finset String := (d.map Prod.fst).toFinset

/-- Dict lookup with default 0 for a missing key. -/
def countOf (d : List (String × Nat)) (k : String) : Nat := (d.lookup k).getD 0

/-- Probability assigned to key `k` after normalizing the counts dict `d` by
its total, as done at the top of `qiskit.quantum_info.analysis.hellinger_distance`. -/
noncomputable def normedProb (d : List (String × Nat)) (k : String) : ℝ :=
  (countOf d k : ℝ) / (sumVals d : ℝ)

/-- The accumulator `total` of `hellinger_distance`: the loop adds
`(sqrt p - sqrt q)^2` for a key in both dicts, the bare probability for a key
in exactly one (which equals `(sqrt p - sqrt 0)^2`), so the whole loop is the
sum of `(sqrt p(k) - sqrt q(k))^2` over the union of the key sets. -/
noncomputable def hellingerTotal (p q : List (String × Nat)) : ℝ :=
  ∑ k ∈ keysOf p ∪ keysOf q,
    (Real.sqrt (normedProb p k) - Real.sqrt (normedProb q k)) ^ 2

/-- `qiskit.quantum_info.analysis.hellinger_distance`:
`sqrt(total) / sqrt(2)`. -/
noncomputable def hellinger_distance (p q : List (String × Nat)) : ℝ :=
  Real.sqrt (hellingerTotal p q) / Real.sqrt 2

/-- `qiskit.quantum_info.analysis.hellinger_fidelity`, the score function
called by `find_fidelity` (line 447): `(1 - dist^2)^2`. -/
noncomputable def hellinger_fidelity (p q : List (String × Nat)) : ℝ :=
  (1 - hellinger_distance p q ^ 2) ^ 2

/-- The fixed ideal distribution (the local `initialState` dict of
`find_fidelity`, line 440). -/
def idealInitialState : List (String × Nat) :=
  [("111", 968), ("101", 8), ("011", 8), ("110", 8),
   ("100", 8), ("010", 8), ("001", 8), ("000", 8)]

/-- `find_fidelity` (lines 439-448): Hellinger fidelity of the ideal
distribution against the suffix-reduced counts. -/
noncomputable def find_fidelity (counts : List (String × Nat)) : ℝ :=
  hellinger_fidelity idealInitialState (reduceToDataQubits counts)

/-! ## The experiment driver -/

/-- The constructor arguments of `Experiment.__init__` (minus the backend). -/
structure Config where
  numQubits : Nat
  initialLayout : List Nat
  initialLayoutWithBuffer : List Nat
  initialState : Nat
  ddSequenceType : Nat

/-- The backend and the qiskit passes it powers, external to this repository:
transpilation with a given initial layout, the ALAP-scheduling plus
DD-padding pass manager (taking the sequence type and the decoupling qubits),
basis translation, and per-pub sampling. -/
structure Backend where
  transpileFn : List Instr → List Nat → Circuit
  alapPadFn : Circuit → Nat → List Nat → Circuit
  basisFn : Circuit → Circuit
  sampleCounts : List Circuit → RawResult

/-- The mutable state of an `Experiment` instance. -/
structure Experiment where
  numQubits : Nat
  initialLayout : List Nat
  initialLayoutWithBuffer : List Nat
  initialState : Nat
  ddSequenceType : Nat
  groverOperator : List Instr
  circuits : List Circuit
  result : List RawResult
  fidelities : List ℝ

/-- `Experiment.__init__` (lines 15-51), with its truthiness-based fallback
to the hardcoded default layouts. -/
def mkExperiment (cfg : Config) : Experiment :=
  { numQubits := if cfg.numQubits ≠ 0 then cfg.numQubits else 9
    initialLayout :=
      if cfg.initialLayout.length ≠ 0 then cfg.initialLayout else [4, 3, 5, 15, 22, 2, 1, 6, 7]
    initialLayoutWithBuffer :=
      if cfg.initialLayoutWithBuffer.length ≠ 0 then cfg.initialLayoutWithBuffer
      else [4, 3, 5, 22, 23, 1, 0, 7, 8]
    initialState := cfg.initialState
    ddSequenceType := cfg.ddSequenceType
    groverOperator := createGroverOperator
    circuits := []
    result := []
    fidelities := [] }

/-- `addNoAttackCircuit` (lines 110-134). -/
def addNoAttackCircuit (b : Backend) (e : Experiment) : Experiment :=
  { e with circuits := e.circuits ++
      [b.transpileFn (noAttackBody e.numQubits e.initialState e.groverOperator) e.initialLayout] }

/-- The DD post-processing chain shared by the three `...DD...` builders:
ALAP schedule + DD padding, the duration-rounding pass, basis translation. -/
def ddPipeline (b : Backend) (ddSequenceType : Nat) (ddQubits : List Nat) (tr : Circuit) :
    Circuit :=
  b.basisFn (roundPass (b.alapPadFn tr ddSequenceType ddQubits))

/-- `addNoAttackPlusDDCircuit` (lines 136-180). -/
def addNoAttackPlusDDCircuit (b : Backend) (e : Experiment) : Experiment :=
  { e with circuits := e.circuits ++
      [ddPipeline b e.ddSequenceType (e.initialLayout.take 3)
        (b.transpileFn (noAttackBody e.numQubits e.initialState e.groverOperator)
          e.initialLayout)] }

/-- `addAttackWithoutMitigationCircuits` (lines 182-225): 45 sweep variants. -/
def addAttackWithoutMitigationCircuits (b : Backend) (e : Experiment) : Experiment :=
  { e with circuits := e.circuits ++
      (List.range 45).map (fun i =>
        b.transpileFn (attackBody e.numQubits e.initialState e.groverOperator i false)
          e.initialLayout) }

/-- `addAttackWithDDCircuits` (lines 227-289). -/
def addAttackWithDDCircuits (b : Backend) (e : Experiment) : Experiment :=
  { e with circuits := e.circuits ++
      (List.range 45).map (fun i =>
        ddPipeline b e.ddSequenceType (e.initialLayout.take 3)
          (b.transpileFn (attackBody e.numQubits e.initialState e.groverOperator i false)
            e.initialLayout)) }

/-- `addAttackWithSpacingCircuits` (lines 291-334). -/
def addAttackWithSpacingCircuits (b : Backend) (e : Experiment) : Experiment :=
  { e with circuits := e.circuits ++
      (List.range 45).map (fun i =>
        b.transpileFn (attackBody e.numQubits e.initialState e.groverOperator i true)
          e.initialLayoutWithBuffer) }

/-- `addAttackWithDDAndSpacingCircuits` (lines 336-398). -/
def addAttackWithDDAndSpacingCircuits (b : Backend) (e : Experiment) : Experiment :=
  { e with circuits := e.circuits ++
      (List.range 45).map (fun i =>
        ddPipeline b e.ddSequenceType (e.initialLayoutWithBuffer.take 3)
          (b.transpileFn (attackBody e.numQubits e.initialState e.groverOperator i true)
            e.initialLayoutWithBuffer)) }

/-- `runAllCircuits` (lines 400-417): wraps each circuit in a singleton pub,
submits the whole batch, and stores the per-pub counts, `result[i]` coming
from `jobResult[i]`, the pub of `circuits[i]`. -/
def runAllCircuits (b : Backend) (e : Experiment) : Experiment :=
  { e with result := e.circuits.map (fun circuit => b.sampleCounts [circuit]) }

/-- `getResult` (lines 419-428): warning messages printed, and the returned
collection. -/
def getResult (e : Experiment) : List String × List RawResult :=
  (if e.result.length = 0 then ["No results yet, returning an empty array."] else [],
   e.result)

/-- `calculateFidelityOfDataQubits` (lines 430-455): one fidelity per stored
raw result, in order. -/
noncomputable def calculateFidelityOfDataQubits (e : Experiment) : Experiment :=
  { e with fidelities := e.result.map find_fidelity }

/-- `getFidelities` (lines 457-466). -/
def getFidelities (e : Experiment) : List String × List ℝ :=
  (if e.fidelities.length = 0 then
     ["Fidelities are not yet calculated. Returning an empty array"] else [],
   e.fidelities)

/-- One circuit-adding call of the building phase. -/
inductive AddOp where
  | noAttack
  | noAttackDD
  | attackNoMitigation
  | attackDD
  | attackSpacing
  | attackDDSpacing

/-- Dispatch one circuit-adding call. -/
def applyAdd (b : Backend) (e : Experiment) : AddOp → Experiment
  | .noAttack => addNoAttackCircuit b e
  | .noAttackDD => addNoAttackPlusDDCircuit b e
  | .attackNoMitigation => addAttackWithoutMitigationCircuits b e
  | .attackDD => addAttackWithDDCircuits b e
  | .attackSpacing => addAttackWithSpacingCircuits b e
  | .attackDDSpacing => addAttackWithDDAndSpacingCircuits b e

/-- The building phase: any sequence of circuit-adding calls from a fresh
experiment, then `runAllCircuits`, then `calculateFidelityOfDataQubits`. -/
noncomputable def runFullPipeline (b : Backend) (cfg : Config) (ops : List AddOp) :
    Experiment :=
  calculateFidelityOfDataQubits (runAllCircuits b (ops.foldl (applyAdd b) (mkExperiment cfg)))

/-- Recognizer for controlled-X instructions. -/
def isCX : Instr → Bool
  | .cx _ _ => true
  | _ => false

/-- Recognizer for delay instructions. -/
def isDelay : Instr → Bool
  | .delay _ _ _ => true
  | _ => false

/-- Concrete single-outcome counts dict, used below. -/
def exCounts1 : List (String × Nat) := [("000", 1)]

/-- Concrete two-outcome counts dict, used below. -/
def exCounts2 : List (String × Nat) := [("000", 1), ("111", 1)]

/-- Concrete counts dict with support disjoint from `exCounts1`. -/
def exCounts3 : List (String × Nat) := [("111", 5)]

/-- The score formula the spec claims.  Modelled from the spec: `1 − (Hellinger
distance between the two distributions, each first normalized)`. -/
noncomputable def specClaimedScore (p q : List (String × Nat)) : ℝ :=
  1 - hellinger_distance p q

end CrosstalkDD

namespace CrosstalkDD

/-! ## Theorems for the slots schedule and duration rounding (C5, C6, C7) -/

/-- Basic facts about the duration-rounding arithmetic `d ↦ (d//8 + 1)*8`
(only when `d % 8 ≠ 0`). -/
lemma roundDuration_facts (d : Nat) :
    roundDuration d % 8 = 0 ∧ d ≤ roundDuration d ∧ roundDuration d - d < 8 ∧
      (d % 8 = 0 → roundDuration d = d) := by
  by_cases h : d % 8 = 0
  · have hd : roundDuration d = d := by
      unfold roundDuration
      rw [if_neg]
      simpa using h
    rw [hd]
    exact ⟨h, le_refl d, by omega, fun _ => rfl⟩
  · have hd : roundDuration d = (d / 8 + 1) * 8 := by
      unfold roundDuration
      rw [if_pos]
      exact h
    rw [hd]
    refine ⟨?_, ?_, ?_, ?_⟩ <;> omega

/-- C5: the duration-rounding pass maps every instruction duration `d` to a
multiple of 8 that is at least `d` and less than `d + 8`, leaves multiples of
8 unchanged, and touches nothing but the duration. -/
theorem roundPass_spec (c : Circuit) (i : Nat) (hi : i < c.length) :
    (roundPass c).length = c.length ∧
    ((roundPass c).get ⟨i, by simpa [roundPass] using hi⟩).name = (c.get ⟨i, hi⟩).name ∧
    ((roundPass c).get ⟨i, by simpa [roundPass] using hi⟩).duration =
      roundDuration ((c.get ⟨i, hi⟩).duration) ∧
    roundDuration ((c.get ⟨i, hi⟩).duration) % 8 = 0 ∧
    (c.get ⟨i, hi⟩).duration ≤ roundDuration ((c.get ⟨i, hi⟩).duration) ∧
    roundDuration ((c.get ⟨i, hi⟩).duration) - (c.get ⟨i, hi⟩).duration < 8 ∧
    ((c.get ⟨i, hi⟩).duration % 8 = 0 →
      roundDuration ((c.get ⟨i, hi⟩).duration) = (c.get ⟨i, hi⟩).duration) := by
  obtain ⟨h1, h2, h3, h4⟩ := roundDuration_facts ((c.get ⟨i, hi⟩).duration)
  exact ⟨by simp [roundPass], by simp [roundPass], by simp [roundPass], h1, h2, h3, h4⟩

/-- Witness for `roundPass_spec` at a concrete one-instruction circuit. -/
theorem roundPass_spec_witness :
    roundDuration ((([⟨usUnit, 13⟩] : Circuit).get ⟨0, by decide⟩).duration) % 8 = 0 :=
  (roundPass_spec [⟨usUnit, 13⟩] 0 (by decide)).2.2.2.1

set_option maxHeartbeats 2000000 in
/-- Helper: tabulation of the iterated `slots` update against the closed
piecewise schedule. -/
lemma slotsAt_tab : ∀ i, i < 45 → slotsAt i = slotsSpec i := by
  intro i
  induction i with
  | zero => intro _; norm_num [slotsAt, slotsStep, slotsSpec]
  | succ n ih =>
    intro hn
    have hrec : slotsAt (n + 1) = slotsStep (n + 1) (slotsAt n) := rfl
    rw [hrec, ih (by omega)]
    have hn44 : n ≤ 43 := by omega
    interval_cases n <;> norm_num [slotsStep, slotsSpec]

/-- C6: for every sweep index `i` in `{0..44}` the value of `slots` used by
the attack loop — the same computation in all four attack-building methods —
follows the claimed fixed schedule: 4 on `[0,5)`, 2 on `[5,10)`, 1 on
`[10,15)`, 1/2 on `[15,20)`, 3/4 on `[20,25)`, 1/2 on `[25,30)`, 1/20 on
`[30,35)`, 1/40 on `[35,40)`, and still 1/40 for `40 ≤ i ≤ 44`. -/
theorem slotsAt_eq_slotsSpec (i : Nat) (hi : i < 45) : slotsAt i = slotsSpec i :=
  slotsAt_tab i hi

/-- Witness for `slotsAt_eq_slotsSpec` at `i = 22`. -/
theorem slotsAt_eq_slotsSpec_witness : slotsAt 22 = slotsSpec 22 :=
  slotsAt_eq_slotsSpec 22 (by decide)

set_option maxHeartbeats 2000000 in
/-- Helper: the closed schedule is non-increasing away from the jump at 20. -/
lemma slotsSpec_antitone (i j : Nat) (hij : i ≤ j) (hside : j < 20 ∨ 20 ≤ i) :
    slotsSpec j ≤ slotsSpec i := by
  unfold slotsSpec
  split_ifs <;> try norm_num
  all_goals omega

/-- C7 counterexample: the sweep schedule is not non-increasing — at
`i = 19 ≤ j = 20` (both within `{0..44}`) the value of `slots` rises from
1/2 to 3/4. -/
theorem slots_not_monotone :
    ¬ (∀ i j : Nat, i ≤ j → j ≤ 44 → slotsAt j ≤ slotsAt i) := by
  intro hmono
  have h := hmono 19 20 (by omega) (by omega)
  rw [slotsAt_tab 19 (by omega), slotsAt_tab 20 (by omega)] at h
  norm_num [slotsSpec] at h

/-- C7 amended: the schedule is non-increasing on each side of the single
jump at index 20 — for `i ≤ j ≤ 44`, if `j < 20` or `20 ≤ i` then
`slotsAt j ≤ slotsAt i`. -/
theorem slots_piecewise_antitone (i j : Nat) (hij : i ≤ j) (hj : j ≤ 44)
    (hside : j < 20 ∨ 20 ≤ i) : slotsAt j ≤ slotsAt i := by
  rw [slotsAt_tab i (by omega), slotsAt_tab j (by omega)]
  exact slotsSpec_antitone i j hij hside

/-- Witness for `slots_piecewise_antitone` at `i = 21`, `j = 33`. -/
theorem slots_piecewise_antitone_witness : slotsAt 33 ≤ slotsAt 21 :=
  slots_piecewise_antitone 21 33 (by decide) (by decide) (Or.inr (by decide))

/-! ## Theorems for the driver (C1, C9, C10) and the reduction (C2) -/

/-- Helper: every circuit-adding call only appends to the circuit collection
and changes nothing else. -/
lemma applyAdd_frame (b : Backend) (e : Experiment) (op : AddOp) :
    (applyAdd b e op).numQubits = e.numQubits ∧
    (applyAdd b e op).initialLayout = e.initialLayout ∧
    (applyAdd b e op).initialLayoutWithBuffer = e.initialLayoutWithBuffer ∧
    (applyAdd b e op).initialState = e.initialState ∧
    (applyAdd b e op).ddSequenceType = e.ddSequenceType ∧
    (applyAdd b e op).groverOperator = e.groverOperator ∧
    (applyAdd b e op).result = e.result ∧
    (applyAdd b e op).fidelities = e.fidelities ∧
    ∃ l, (applyAdd b e op).circuits = e.circuits ++ l := by
  cases op <;> exact ⟨rfl, rfl, rfl, rfl, rfl, rfl, rfl, rfl, _, rfl⟩

/-- C10: every circuit-building method (`addNoAttackCircuit`,
`addNoAttackPlusDDCircuit` and the four `addAttack*` methods) only appends to
the circuit collection: the result collection, the fidelity collection, the
previously appended circuits (a prefix of the new collection) and every
configuration field are unchanged. -/
theorem addMethods_only_append (b : Backend) (e : Experiment) (op : AddOp) :
    (applyAdd b e op).numQubits = e.numQubits ∧
    (applyAdd b e op).initialLayout = e.initialLayout ∧
    (applyAdd b e op).initialLayoutWithBuffer = e.initialLayoutWithBuffer ∧
    (applyAdd b e op).initialState = e.initialState ∧
    (applyAdd b e op).ddSequenceType = e.ddSequenceType ∧
    (applyAdd b e op).groverOperator = e.groverOperator ∧
    (applyAdd b e op).result = e.result ∧
    (applyAdd b e op).fidelities = e.fidelities ∧
    ∃ l, (applyAdd b e op).circuits = e.circuits ++ l :=
  applyAdd_frame b e op

/-- Helper: the building phase leaves `result` and `fidelities` untouched. -/
lemma buildPhase_result_fid (b : Backend) (ops : List AddOp) :
    ∀ e : Experiment, (ops.foldl (applyAdd b) e).result = e.result ∧
      (ops.foldl (applyAdd b) e).fidelities = e.fidelities := by
  induction ops with
  | nil => intro e; exact ⟨rfl, rfl⟩
  | cons op rest ih =>
    intro e
    simp only [List.foldl_cons]
    obtain ⟨h1, h2⟩ := ih (applyAdd b e op)
    obtain ⟨-, -, -, -, -, -, hr, hf, -⟩ := applyAdd_frame b e op
    exact ⟨h1.trans hr, h2.trans hf⟩

/-- C9: on any experiment on which no circuit has been run — freshly
constructed, or after circuit-adding calls only — `getResult` returns the
empty collection together with a printed warning, and `getFidelities`
likewise before `calculateFidelityOfDataQubits` has run; both are total
functions, so no exception is raised. -/
theorem prematureAccess_warns_and_returns_empty (b : Backend) (cfg : Config)
    (ops : List AddOp) :
    getResult (ops.foldl (applyAdd b) (mkExperiment cfg)) =
      (["No results yet, returning an empty array."], []) ∧
    getFidelities (ops.foldl (applyAdd b) (mkExperiment cfg)) =
      (["Fidelities are not yet calculated. Returning an empty array"], []) := by
  obtain ⟨hr, hf⟩ := buildPhase_result_fid b ops (mkExperiment cfg)
  rw [getResult, getFidelities, hr, hf]
  exact ⟨rfl, rfl⟩

/-- C1: after any combination of circuit-adding calls followed by
`runAllCircuits` and `calculateFidelityOfDataQubits`, the circuit, raw-result
and fidelity collections have equal lengths, the `i`-th raw result is the
sampled counts of (the singleton pub of) the `i`-th circuit, and the `i`-th
fidelity is `find_fidelity` of the `i`-th raw result. -/
theorem pipeline_index_aligned (b : Backend) (cfg : Config) (ops : List AddOp) :
    (runFullPipeline b cfg ops).circuits.length = (runFullPipeline b cfg ops).result.length ∧
    (runFullPipeline b cfg ops).result.length = (runFullPipeline b cfg ops).fidelities.length ∧
    (∀ i : Nat, (runFullPipeline b cfg ops).result[i]? =
      ((runFullPipeline b cfg ops).circuits[i]?).map (fun circuit => b.sampleCounts [circuit])) ∧
    (∀ i : Nat, (runFullPipeline b cfg ops).fidelities[i]? =
      ((runFullPipeline b cfg ops).result[i]?).map find_fidelity) := by
  refine ⟨?_, ?_, ?_, ?_⟩ <;>
    simp [runFullPipeline, calculateFidelityOfDataQubits, runAllCircuits, List.getElem?_map]

/-- Helper: `addToDist` grows the total by exactly the added count. -/
lemma sumVals_addToDist (d : List (String × Nat)) (k : String) (v : Nat) :
    sumVals (addToDist d k v) = sumVals d + v := by
  induction d with
  | nil => simp [addToDist, sumVals]
  | cons kv rest ih =>
    obtain ⟨k0, v0⟩ := kv
    by_cases h : k0 = k
    · simp [addToDist, h, sumVals]
      omega
    · simp only [addToDist, h, if_false]
      simp [sumVals] at ih ⊢
      omega

/-- Helper: the reduction fold preserves totals from any accumulator. -/
lemma reduce_foldl_sum (counts : List (String × Nat)) :
    ∀ acc, sumVals (counts.foldl (fun a kv => addToDist a (kv.1.takeRight 3) kv.2) acc) =
      sumVals acc + sumVals counts := by
  induction counts with
  | nil => intro acc; simp [sumVals]
  | cons kv rest ih =>
    intro acc
    simp only [List.foldl_cons]
    rw [ih, sumVals_addToDist]
    simp [sumVals]
    omega

/-- C2: reducing a raw result to the distribution over 3-character suffixes
preserves the total count: no counts are lost in aggregation. -/
theorem reduceToDataQubits_preserves_total (counts : List (String × Nat)) :
    sumVals (reduceToDataQubits counts) = sumVals counts := by
  have h := reduce_foldl_sum counts []
  simpa [reduceToDataQubits, sumVals] using h

/-! ## Theorems for the attack overlay (C8) -/

/-- Helper: a constant `flatMap` over `range i` is `i` joined copies. -/
lemma flatMap_range_const (i : Nat) (l : List Instr) :
    (List.range i).flatMap (fun _ => l) = (List.replicate i l).flatten := by
  induction i with
  | zero => rfl
  | succ n ih =>
    rw [List.range_succ, List.replicate_succ']
    simp [ih]

/-- Helper: counting over `i` joined copies. -/
lemma countP_flatten_replicate (p : Instr → Bool) (i : Nat) (l : List Instr) :
    ((List.replicate i l).flatten).countP p = i * l.countP p := by
  induction i with
  | zero => simp
  | succ n ih =>
    rw [List.replicate_succ]
    simp [List.countP_append, ih, Nat.succ_mul]
    omega

/-- Helper: counting over a `flatMap` whose blocks all contribute `c`. -/
lemma countP_flatMap_blocks (p : Instr → Bool) (f : Nat → List Instr) (c : Nat)
    (hf : ∀ k, (f k).countP p = c) (l : List Nat) :
    (l.flatMap f).countP p = l.length * c := by
  induction l with
  | nil => simp
  | cons a t ih =>
    simp [List.countP_append, hf, ih, Nat.succ_mul]
    omega

/-- Helper: the base circuit shape holds no controlled-X and no delay. -/
lemma baseOps_no_attack_ops (n st : Nat) (g : List Instr) :
    (baseOps n st g).countP isCX = 0 ∧ (baseOps n st g).countP isDelay = 0 := by
  have hzero : ∀ f : Nat → Instr, (∀ k, isCX (f k) = false ∧ isDelay (f k) = false) →
      ∀ l : List Nat, (l.map f).countP isCX = 0 ∧ (l.map f).countP isDelay = 0 := by
    intro f hf l
    induction l with
    | nil => simp
    | cons a t ih =>
      simp only [List.map_cons, List.countP_cons, (hf a).1, (hf a).2, ih.1, ih.2]
      simp
  have hprep : (prepOps n st).countP isCX = 0 ∧ (prepOps n st).countP isDelay = 0 := by
    unfold prepOps
    split_ifs
    · exact hzero Instr.x (fun k => ⟨rfl, rfl⟩) _
    · exact hzero Instr.h (fun k => ⟨rfl, rfl⟩) _
    · simp
  unfold baseOps
  rw [List.countP_append, List.countP_append, hprep.1, hprep.2]
  simp [List.countP_cons, isCX, isDelay]

/-- C8: for `numQubits ≥ 3` and sweep index `i < 45`, the attack overlay of
the `i`-th circuit is exactly `i` joined repetitions of the per-pair round —
in non-spacing mode one `cx(k, k+1)` then a `slots`-microsecond delay on `k`
for each `k ∈ {3, 5, 7, ...}` below `numQubits`, in spacing mode one
`cx(k+1, k+2)` then the delay on `k+1` for each `k ∈ {3, 6, 9, ...}` below
`numQubits` — so the built circuit carries exactly `i · #pairs` controlled-X
and `i · #pairs` delay instructions. -/
theorem attack_pattern_structure (n st i : Nat) (g : List Instr) (hn : 3 ≤ n)
    (hi : i < 45) :
    (∀ k, k ∈ pyRange 3 n 2 ↔ 3 ≤ k ∧ k < n ∧ k % 2 = 1) ∧
    (∀ k, k ∈ pyRange 3 n 3 ↔ 3 ≤ k ∧ k < n ∧ k % 3 = 0) ∧
    attackOps n i (slotsAt i) false =
      (List.replicate i ((pyRange 3 n 2).flatMap
        (fun k => [Instr.cx k (k + 1), Instr.delay (slotsAt i) usUnit k]))).flatten ∧
    attackOps n i (slotsAt i) true =
      (List.replicate i ((pyRange 3 n 3).flatMap
        (fun k => [Instr.cx (k + 1) (k + 2), Instr.delay (slotsAt i) usUnit (k + 1)]))).flatten ∧
    (attackBody n st g i false).countP isCX = i * (pyRange 3 n 2).length ∧
    (attackBody n st g i false).countP isDelay = i * (pyRange 3 n 2).length ∧
    (attackBody n st g i true).countP isCX = i * (pyRange 3 n 3).length ∧
    (attackBody n st g i true).countP isDelay = i * (pyRange 3 n 3).length := by
  have hmem2 : ∀ k, k ∈ pyRange 3 n 2 ↔ 3 ≤ k ∧ k < n ∧ k % 2 = 1 := by
    intro k
    simp only [pyRange, List.mem_map, List.mem_range]
    constructor
    · rintro ⟨m, hm, rfl⟩
      omega
    · rintro ⟨h3, hlt, hpar⟩
      exact ⟨(k - 3) / 2, by omega, by omega⟩
  have hmem3 : ∀ k, k ∈ pyRange 3 n 3 ↔ 3 ≤ k ∧ k < n ∧ k % 3 = 0 := by
    intro k
    simp only [pyRange, List.mem_map, List.mem_range]
    constructor
    · rintro ⟨m, hm, rfl⟩
      omega
    · rintro ⟨h3, hlt, hpar⟩
      exact ⟨(k - 3) / 3, by omega, by omega⟩
  have hops2 : attackOps n i (slotsAt i) false =
      (List.replicate i ((pyRange 3 n 2).flatMap
        (fun k => [Instr.cx k (k + 1), Instr.delay (slotsAt i) usUnit k]))).flatten := by
    unfold attackOps
    simp only [Bool.false_eq_true, if_false]
    exact flatMap_range_const i _
  have hops3 : attackOps n i (slotsAt i) true =
      (List.replicate i ((pyRange 3 n 3).flatMap
        (fun k => [Instr.cx (k + 1) (k + 2), Instr.delay (slotsAt i) usUnit (k + 1)]))).flatten := by
    unfold attackOps
    simp only [if_true]
    exact flatMap_range_const i _
  have hbase := baseOps_no_attack_ops n st g
  have hcount : ∀ sp : Bool, ∀ p : Instr → Bool,
      (∀ kv : Instr × Instr, True) → True := fun _ _ _ => trivial
  refine ⟨hmem2, hmem3, hops2, hops3, ?_, ?_, ?_, ?_⟩ <;>
    unfold attackBody <;>
    rw [List.countP_append, List.countP_append] <;>
    [rw [hbase.1]; rw [hbase.2]; rw [hbase.1]; rw [hbase.2]] <;>
    [rw [hops2]; rw [hops2]; rw [hops3]; rw [hops3]] <;>
    rw [countP_flatten_replicate] <;>
    [rw [countP_flatMap_blocks isCX _ 1 (fun k => by simp [List.countP_cons, isCX, isDelay])];
     rw [countP_flatMap_blocks isDelay _ 1 (fun k => by simp [List.countP_cons, isCX, isDelay])];
     rw [countP_flatMap_blocks isCX _ 1 (fun k => by simp [List.countP_cons, isCX, isDelay])];
     rw [countP_flatMap_blocks isDelay _ 1 (fun k => by simp [List.countP_cons, isCX, isDelay])]] <;>
    simp [List.countP_cons, isCX, isDelay]

/-- Witness for `attack_pattern_structure` at `numQubits = 9`, `i = 2`. -/
theorem attack_pattern_structure_witness :
    (attackBody 9 0 createGroverOperator 2 false).countP isCX = 2 * (pyRange 3 9 2).length :=
  (attack_pattern_structure 9 0 2 createGroverOperator (by decide) (by decide)).2.2.2.2.1

/-! ## Theorems for the Hellinger score (C3, C4) -/

/-- Helper: the count of a key absent from the key set is 0. -/
lemma countOf_not_mem (d : List (String × Nat)) (k : String) (hk : k ∉ keysOf d) :
    countOf d k = 0 := by
  induction d with
  | nil => rfl
  | cons kv t ih =>
    obtain ⟨a, v⟩ := kv
    simp only [keysOf, List.map_cons, List.toFinset_cons, Finset.mem_insert, not_or] at hk
    have hka : (k == a) = false := beq_eq_false_iff_ne.mpr hk.1
    have ht : k ∉ keysOf t := by simpa [keysOf] using hk.2
    simpa [countOf, List.lookup, hka] using ih ht

/-- Helper: lookup of the head key. -/
lemma countOf_cons_self (a : String) (v : Nat) (t : List (String × Nat)) :
    countOf ((a, v) :: t) a = v := by
  simp [countOf, List.lookup]

/-- Helper: lookup skips a non-matching head. -/
lemma countOf_cons_ne (a k : String) (v : Nat) (t : List (String × Nat)) (hak : k ≠ a) :
    countOf ((a, v) :: t) k = countOf t k := by
  have hka : (k == a) = false := beq_eq_false_iff_ne.mpr hak
  simp [countOf, List.lookup, hka]

/-- Helper: on a dict with no duplicate keys, the counts indexed by the key
set sum to the value total. -/
lemma sum_countOf_keys (d : List (String × Nat)) (hnd : (d.map Prod.fst).Nodup) :
    ∑ k ∈ keysOf d, (countOf d k : ℝ) = (sumVals d : ℝ) := by
  induction d with
  | nil => simp [keysOf, sumVals]
  | cons kv t ih =>
    obtain ⟨a, v⟩ := kv
    simp only [List.map_cons, List.nodup_cons] at hnd
    have ha : a ∉ keysOf t := by simpa [keysOf] using hnd.1
    have hkeys : keysOf ((a, v) :: t) = insert a (keysOf t) := by
      simp [keysOf]
    rw [hkeys, Finset.sum_insert ha, countOf_cons_self]
    have hrest : ∑ k ∈ keysOf t, (countOf ((a, v) :: t) k : ℝ) =
        ∑ k ∈ keysOf t, (countOf t k : ℝ) := by
      refine Finset.sum_congr rfl (fun k hk => ?_)
      have hne : k ≠ a := fun h => ha (h ▸ hk)
      rw [countOf_cons_ne a k v t hne]
    rw [hrest, ih hnd.2]
    simp [sumVals]

/-- Helper: normalized probabilities are non-negative. -/
lemma normedProb_nonneg (d : List (String × Nat)) (k : String) : 0 ≤ normedProb d k :=
  div_nonneg (Nat.cast_nonneg _) (Nat.cast_nonneg _)

/-- Helper: a non-empty positive-count dict has a positive total. -/
lemma sumVals_pos (d : List (String × Nat)) (hne : d ≠ [])
    (hpos : ∀ kv ∈ d, 0 < kv.2) : 0 < sumVals d := by
  cases d with
  | nil => exact absurd rfl hne
  | cons kv t =>
    have h1 : 0 < kv.2 := hpos kv (List.mem_cons_self kv t)
    simp only [sumVals, List.map_cons, List.sum_cons]
    omega

/-- Helper: over any key set covering its own keys, a Nodup positive-total
dict normalizes to a probability distribution: the probabilities sum to 1. -/
lemma sum_normedProb_eq_one (d : List (String × Nat)) (hnd : (d.map Prod.fst).Nodup)
    (hS : 0 < sumVals d) (U : Finset String) (hU : keysOf d ⊆ U) :
    ∑ k ∈ U, normedProb d k = 1 := by
  have hzero : ∀ k ∈ U, k ∉ keysOf d → normedProb d k = 0 := by
    intro k _ hk
    simp [normedProb, countOf_not_mem d k hk]
  rw [← Finset.sum_subset hU hzero]
  unfold normedProb
  rw [← Finset.sum_div, sum_countOf_keys d hnd]
  have : (sumVals d : ℝ) ≠ 0 := by
    have := hS
    positivity
  exact div_self this

/-- Helper: the loop total of `hellinger_distance` is symmetric. -/
lemma hellingerTotal_comm (p q : List (String × Nat)) :
    hellingerTotal p q = hellingerTotal q p := by
  unfold hellingerTotal
  rw [Finset.union_comm]
  exact Finset.sum_congr rfl (fun k _ => by ring)

/-- C3: the fidelity score is 1 on identical valid distributions, 0 on valid
distributions with disjoint key sets, and symmetric in its two arguments. -/
theorem hellinger_fidelity_props :
    (∀ d : List (String × Nat), d ≠ [] → (∀ kv ∈ d, 0 < kv.2) →
      (d.map Prod.fst).Nodup → hellinger_fidelity d d = 1) ∧
    (∀ p q : List (String × Nat), p ≠ [] → (∀ kv ∈ p, 0 < kv.2) →
      (p.map Prod.fst).Nodup → q ≠ [] → (∀ kv ∈ q, 0 < kv.2) →
      (q.map Prod.fst).Nodup → Disjoint (keysOf p) (keysOf q) →
      hellinger_fidelity p q = 0) ∧
    (∀ p q : List (String × Nat), hellinger_fidelity p q = hellinger_fidelity q p) := by
  refine ⟨?_, ?_, ?_⟩
  · intro d _ _ _
    have htot : hellingerTotal d d = 0 :=
      Finset.sum_eq_zero (fun k _ => by simp)
    unfold hellinger_fidelity hellinger_distance
    rw [htot, Real.sqrt_zero, zero_div]
    norm_num
  · intro p q hpne hppos hpnd hqne hqpos hqnd hdisj
    have hSp : 0 < sumVals p := sumVals_pos p hpne hppos
    have hSq : 0 < sumVals q := sumVals_pos q hqne hqpos
    have htot : hellingerTotal p q = 2 := by
      unfold hellingerTotal
      rw [Finset.sum_union hdisj]
      have hp : ∑ k ∈ keysOf p,
          (Real.sqrt (normedProb p k) - Real.sqrt (normedProb q k)) ^ 2 =
          ∑ k ∈ keysOf p, normedProb p k := by
        refine Finset.sum_congr rfl (fun k hk => ?_)
        have hkq : k ∉ keysOf q := Finset.disjoint_left.mp hdisj hk
        rw [show normedProb q k = 0 by simp [normedProb, countOf_not_mem q k hkq]]
        rw [Real.sqrt_zero, sub_zero, Real.sq_sqrt (normedProb_nonneg p k)]
      have hq : ∑ k ∈ keysOf q,
          (Real.sqrt (normedProb p k) - Real.sqrt (normedProb q k)) ^ 2 =
          ∑ k ∈ keysOf q, normedProb q k := by
        refine Finset.sum_congr rfl (fun k hk => ?_)
        have hkp : k ∉ keysOf p := Finset.disjoint_right.mp hdisj hk
        rw [show normedProb p k = 0 by simp [normedProb, countOf_not_mem p k hkp]]
        rw [Real.sqrt_zero, zero_sub, neg_sq, Real.sq_sqrt (normedProb_nonneg q k)]
      rw [hp, hq,
        sum_normedProb_eq_one p hpnd hSp (keysOf p) (Finset.Subset.refl _),
        sum_normedProb_eq_one q hqnd hSq (keysOf q) (Finset.Subset.refl _)]
      norm_num
    unfold hellinger_fidelity hellinger_distance
    rw [htot]
    have h2 : Real.sqrt 2 ≠ 0 := by positivity
    rw [div_self h2]
    norm_num
  · intro p q
    unfold hellinger_fidelity hellinger_distance
    rw [hellingerTotal_comm]

/-- Witness for `hellinger_fidelity_props` at concrete distributions. -/
theorem hellinger_fidelity_props_witness :
    hellinger_fidelity exCounts2 exCounts2 = 1 ∧
    hellinger_fidelity exCounts1 exCounts3 = 0 := by
  constructor
  · exact hellinger_fidelity_props.1 exCounts2 (by decide) (by decide) (by decide)
  · refine hellinger_fidelity_props.2.1 exCounts1 exCounts3 (by decide) (by decide)
      (by decide) (by decide) (by decide) (by decide) ?_
    rw [Finset.disjoint_left]
    intro a ha hb
    simp [keysOf, exCounts1] at ha
    simp [keysOf, exCounts3] at hb
    rw [ha] at hb
    exact absurd hb (by decide)

/-- C4 amended: for valid distributions the implemented score equals the
square of the Bhattacharyya coefficient of the two normalized distributions,
that is `(1 - H^2)^2` where `H` is the Hellinger distance — not `1 - H`. -/
theorem hellinger_fidelity_eq_bc_sq (p q : List (String × Nat)) (hpne : p ≠ [])
    (hppos : ∀ kv ∈ p, 0 < kv.2) (hpnd : (p.map Prod.fst).Nodup) (hqne : q ≠ [])
    (hqpos : ∀ kv ∈ q, 0 < kv.2) (hqnd : (q.map Prod.fst).Nodup) :
    hellinger_fidelity p q =
      (∑ k ∈ keysOf p ∪ keysOf q,
        Real.sqrt (normedProb p k * normedProb q k)) ^ 2 := by
  have hSp : 0 < sumVals p := sumVals_pos p hpne hppos
  have hSq : 0 < sumVals q := sumVals_pos q hqne hqpos
  have hsum_p : ∑ k ∈ keysOf p ∪ keysOf q, normedProb p k = 1 :=
    sum_normedProb_eq_one p hpnd hSp _ Finset.subset_union_left
  have hsum_q : ∑ k ∈ keysOf p ∪ keysOf q, normedProb q k = 1 :=
    sum_normedProb_eq_one q hqnd hSq _ Finset.subset_union_right
  have hterm : ∀ k : String,
      (Real.sqrt (normedProb p k) - Real.sqrt (normedProb q k)) ^ 2 =
        normedProb p k + normedProb q k -
          2 * Real.sqrt (normedProb p k * normedProb q k) := by
    intro k
    rw [sub_sq, Real.sq_sqrt (normedProb_nonneg p k), Real.sq_sqrt (normedProb_nonneg q k),
      Real.sqrt_mul (normedProb_nonneg p k)]
    ring
  have htot : hellingerTotal p q =
      2 - 2 * ∑ k ∈ keysOf p ∪ keysOf q,
        Real.sqrt (normedProb p k * normedProb q k) := by
    unfold hellingerTotal
    rw [Finset.sum_congr rfl (fun k _ => hterm k), Finset.sum_sub_distrib,
      Finset.sum_add_distrib, hsum_p, hsum_q, ← Finset.mul_sum]
    norm_num
  have htot_nonneg : 0 ≤ hellingerTotal p q :=
    Finset.sum_nonneg (fun k _ => sq_nonneg _)
  unfold hellinger_fidelity hellinger_distance
  rw [div_pow, Real.sq_sqrt htot_nonneg, Real.sq_sqrt (by norm_num : (0:ℝ) ≤ 2), htot]
  ring

/-- Witness for `hellinger_fidelity_eq_bc_sq` at concrete distributions. -/
theorem hellinger_fidelity_eq_bc_sq_witness :
    hellinger_fidelity exCounts1 exCounts2 =
      (∑ k ∈ keysOf exCounts1 ∪ keysOf exCounts2,
        Real.sqrt (normedProb exCounts1 k * normedProb exCounts2 k)) ^ 2 :=
  hellinger_fidelity_eq_bc_sq exCounts1 exCounts2 (by decide) (by decide) (by decide)
    (by decide) (by decide) (by decide)

/-- Helper: `(√2)² = 2`. -/
lemma sqrt_two_sq : Real.sqrt 2 ^ 2 = 2 := Real.sq_sqrt (by norm_num)

/-- Helper: `√2 > 0`. -/
lemma sqrt_two_pos : 0 < Real.sqrt 2 := Real.sqrt_pos.mpr (by norm_num)

/-- Helper: `√2 ≤ 2`. -/
lemma sqrt_two_le_two : Real.sqrt 2 ≤ 2 := by nlinarith [sqrt_two_sq, sqrt_two_pos]

/-- Helper: the key-set union of the two concrete example dicts. -/
lemma keys_ex_union :
    keysOf exCounts1 ∪ keysOf exCounts2 = insert "000" {"111"} := by
  refine Finset.ext (fun a => ?_)
  simp only [keysOf, exCounts1, exCounts2, List.map_cons, List.map_nil, List.toFinset_cons,
    List.toFinset_nil, Finset.mem_union, Finset.mem_insert, Finset.mem_singleton,
    insert_emptyc_eq]
  tauto

/-- Helper: the Hellinger loop total on the concrete example pair. -/
lemma hellingerTotal_ex :
    hellingerTotal exCounts1 exCounts2 = 2 - Real.sqrt 2 := by
  have hp0 : normedProb exCounts1 "000" = 1 := by
    rw [normedProb, show countOf exCounts1 "000" = 1 from countOf_cons_self "000" 1 [],
      show sumVals exCounts1 = 1 from rfl]
    norm_num
  have hp1 : normedProb exCounts1 "111" = 0 := by
    rw [normedProb, show countOf exCounts1 "111" = 0 by
      rw [exCounts1, countOf_cons_ne "000" "111" 1 [] (by decide)]; rfl]
    norm_num
  have hq0 : normedProb exCounts2 "000" = 1 / 2 := by
    rw [normedProb, show countOf exCounts2 "000" = 1 from countOf_cons_self "000" 1 _,
      show sumVals exCounts2 = 2 from rfl]
    norm_num
  have hq1 : normedProb exCounts2 "111" = 1 / 2 := by
    rw [normedProb, show countOf exCounts2 "111" = 1 by
        rw [exCounts2, countOf_cons_ne "000" "111" 1 _ (by decide)]
        exact countOf_cons_self "111" 1 _,
      show sumVals exCounts2 = 2 from rfl]
    norm_num
  unfold hellingerTotal
  rw [keys_ex_union, Finset.sum_insert (by decide), Finset.sum_singleton,
    hp0, hp1, hq0, hq1, Real.sqrt_one, Real.sqrt_zero]
  have hhalf : Real.sqrt (1 / 2) = Real.sqrt 2 / 2 := by
    rw [show (1 / 2 : ℝ) = 2⁻¹ by norm_num, Real.sqrt_inv]
    rw [inv_eq_one_div, div_eq_div_iff sqrt_two_pos.ne.symm (by norm_num : (2:ℝ) ≠ 0)]
    nlinarith [sqrt_two_sq]
  rw [hhalf]
  linear_combination sqrt_two_sq / 2

/-- C4 counterexample: on the concrete pair `{"000": 1}` and
`{"000": 1, "111": 1}` the implemented score is 1/2 while
`1 − HellingerDistance` is `1 − √(1 − √2/2) ≈ 0.459`, so the claimed formula
is false. -/
theorem hellinger_fidelity_ne_spec_score :
    hellinger_fidelity exCounts1 exCounts2 ≠ specClaimedScore exCounts1 exCounts2 := by
  have hnn : (0:ℝ) ≤ 2 - Real.sqrt 2 := by linarith [sqrt_two_le_two]
  have hdist_sq : hellinger_distance exCounts1 exCounts2 ^ 2 = (2 - Real.sqrt 2) / 2 := by
    unfold hellinger_distance
    rw [div_pow, hellingerTotal_ex, Real.sq_sqrt hnn, sqrt_two_sq]
  have hfid : hellinger_fidelity exCounts1 exCounts2 = 1 / 2 := by
    unfold hellinger_fidelity
    rw [hdist_sq]
    linear_combination sqrt_two_sq / 4
  have hdist_eq : hellinger_distance exCounts1 exCounts2 =
      Real.sqrt (2 - Real.sqrt 2) / Real.sqrt 2 := by
    unfold hellinger_distance
    rw [hellingerTotal_ex]
  intro heq
  rw [hfid, specClaimedScore, hdist_eq] at heq
  have hq : Real.sqrt (2 - Real.sqrt 2) / Real.sqrt 2 = 1 / 2 := by linarith
  have hqq : Real.sqrt (2 - Real.sqrt 2) = Real.sqrt 2 / 2 := by
    rw [div_eq_div_iff sqrt_two_pos.ne.symm (by norm_num : (2:ℝ) ≠ 0)] at hq
    rw [eq_div_iff (by norm_num : (2:ℝ) ≠ 0)]
    linarith
  have hsq := congrArg (fun x : ℝ => x ^ 2) hqq
  simp only [div_pow, Real.sq_sqrt hnn, sqrt_two_sq] at hsq
  have h32 : Real.sqrt 2 = 3 / 2 := by norm_num at hsq; linarith
  have : (2:ℝ) = 9 / 4 := by
    calc (2:ℝ) = Real.sqrt 2 ^ 2 := sqrt_two_sq.symm
    _ = (3 / 2) ^ 2 := by rw [h32]
    _ = 9 / 4 := by norm_num
  norm_num at this

end CrosstalkDD
